import Mathlib

/-!
Shallow embedding of the PDP-Lab01 dependency-graph sum engine.

The repository contains three variants of the same lab exercise:
* `src/main.cpp` (`class VariableSystem`, single file) — embedded in namespace `VS`;
* `src/unnamed/part_001` (`VariableSystem.cpp`, the out-of-line implementation of a
  `VariableSystem` class, with a stack-based search and a count-based inverse
  adjacency) — embedded in namespace `VS1`;
* `src/unnamed/part_000` (`class SensorSystem`, an earlier draft whose
  `updateVariable` performs no writes) — embedded in namespace `SS`.

Graphs are adjacency lists `List (List Nat)`; variable stores are `List Int`.
C++ `assert` guards on arguments are modelled as `InvalidArgument` errors
(the asserts fire before any mutation, so a failed call leaves the store
unchanged).  Mutex acquisition/release is modelled by explicit event traces:
the C++ `std::vector<std::unique_lock>` acquires in construction order and
releases in reverse order at scope exit, after all reads and writes.
The recursive / stack-based C++ graph searches terminate because the visited
set grows; the embedding makes this explicit with a fuel argument consumed
once per processed worklist element, with fuel bounds proved sufficient.
-/

namespace PDP

/-- Adjacency lookup `searchSpace[var]`; out-of-range ids have no neighbours. -/
def nbrs (adj : List (List Nat)) (u : Nat) : List Nat := adj.getD u []

/-- One step of the relation being searched: `v` occurs in `u`'s adjacency list. -/
def Edge (adj : List (List Nat)) (u v : Nat) : Prop := v ∈ nbrs adj u

/-- Transitive reachability along `Edge adj`, including the start id itself. -/
def Reaches (adj : List (List Nat)) (u v : Nat) : Prop :=
  Relation.ReflTransGen (Edge adj) u v

/-- Error outcome of an argument-checking guard (a failed C++ `assert`). -/
inductive UpdateError
  | invalidArgument
deriving DecidableEq

/-- Lock-table events of one engine operation, in program order. -/
inductive LockEvent
  | acquire (id : Nat)
  | write (id : Nat)
  | release (id : Nat)
deriving DecidableEq

/-- Effect of one event on the store: `write id` adds the pending delta at `id`,
locking events do not touch the store. -/
def applyEvent (delta : Int) (vars : List Int) : LockEvent → List Int
  | LockEvent.write id => vars.set id (vars.getD id 0 + delta)
  | _ => vars

/-- Effect of a whole event trace on the store. -/
def applyTrace (delta : Int) (trace : List LockEvent) (vars : List Int) : List Int :=
  trace.foldl (applyEvent delta) vars

/-- Shared shape of `std::accumulate(inputs, 0, [+ vars[valueId]])`:
left fold summing the current stored values of the declared inputs,
repeated ids counted once per occurrence. -/
def inputSum (vars : List Int) (inputs : List Nat) : Int :=
  inputs.foldl (fun partialSum valueId => partialSum + vars.getD valueId 0) 0

namespace VS

/-- main.cpp `VariableSystem::createVariables`: a vector of `size` zeros. -/
def createVariables (size : Nat) : List Int := List.replicate size 0

/-- main.cpp `VariableSystem::computeDependents`: for each `dependentIndex`, the
ascending list of `dependencyIndex` whose input list contains it, recorded once
per dependent (`std::find`, not a count). -/
def computeDependents (dependencies : List (List Nat)) : List (List Nat) :=
  (List.range dependencies.length).map fun dependentIndex =>
    (List.range dependencies.length).filter fun dependencyIndex =>
      decide (dependentIndex ∈ dependencies.getD dependencyIndex [])

/-- Visited-set evolution shared by `search` and `uniqueSearch`: process a
worklist of neighbours depth-first, descending into a neighbour exactly when it
is seen for the first time.  One unit of fuel is consumed per processed
worklist element. -/
def visitF (adj : List (List Nat)) : Nat → List Nat → List Nat → List Nat
  | 0, _, vis => vis
  | _ + 1, [], vis => vis
  | fuel + 1, dep :: rest, vis =>
    if dep ∈ vis then visitF adj fuel rest vis
    else visitF adj fuel rest (visitF adj fuel (nbrs adj dep) (vis ++ [dep]))

/-- Depth-first worker of main.cpp `VariableSystem::search`: every scanned
neighbour is appended to the result (`result.push_back(dep)` happens before the
visited check), recursion happens only on first visits. -/
def dfsD (adj : List (List Nat)) :
    Nat → List Nat → List Nat × List Nat → List Nat × List Nat
  | 0, _, st => st
  | _ + 1, [], st => st
  | fuel + 1, dep :: rest, (vis, res) =>
    if dep ∈ vis then dfsD adj fuel rest (vis, res ++ [dep])
    else dfsD adj fuel rest (dfsD adj fuel (nbrs adj dep) (vis ++ [dep], res ++ [dep]))

/-- Depth-first worker of main.cpp `VariableSystem::uniqueSearch`: a neighbour
is appended to the result only on its first visit, after the recursive call. -/
def dfsU (adj : List (List Nat)) :
    Nat → List Nat → List Nat × List Nat → List Nat × List Nat
  | 0, _, st => st
  | _ + 1, [], st => st
  | fuel + 1, dep :: rest, (vis, res) =>
    if dep ∈ vis then dfsU adj fuel rest (vis, res)
    else
      dfsU adj fuel rest
        ((dfsU adj fuel (nbrs adj dep) (vis ++ [dep], res)).1,
         (dfsU adj fuel (nbrs adj dep) (vis ++ [dep], res)).2 ++ [dep])

/-- Fuel sufficient for a complete traversal (proved sufficient below). -/
def searchFuel (adj : List (List Nat)) : Nat := 2 * adj.flatten.length + 1

/-- Fuel still needed by `visitF`-shaped traversals: one unit per remaining
neighbour-list entry of every not-yet-visited in-range node. -/
def fuelNeed (adj : List (List Nat)) (vis : List Nat) : Nat :=
  ∑ u ∈ Finset.range adj.length, if u ∈ vis then 0 else (nbrs adj u).length

/-- main.cpp `VariableSystem::search`: duplicating depth-first traversal from
`startID`, sorted ascending at the end (`std::sort`). -/
def search (startID : Nat) (searchSpace : List (List Nat)) : List Nat :=
  List.insertionSort (· ≤ ·)
    (dfsD searchSpace (searchFuel searchSpace) (nbrs searchSpace startID)
      ([startID], [startID])).2

/-- main.cpp `VariableSystem::uniqueSearch`: deduplicated depth-first traversal
from `startID`, sorted ascending at the end (`std::sort`). -/
def uniqueSearch (startID : Nat) (searchSpace : List (List Nat)) : List Nat :=
  List.insertionSort (· ≤ ·)
    (dfsU searchSpace (searchFuel searchSpace) (nbrs searchSpace startID)
      ([startID], [startID])).2

/-- main.cpp `VariableSystem::getAllDependents`: the sorted deduplicated closure
of `variableID` in the dependents relation; its order is the lock-acquisition
order of `updateVariable`. -/
def getAllDependents (variableID : Nat) (dependents : List (List Nat)) : List Nat :=
  uniqueSearch variableID dependents

/-- main.cpp `VariableSystem::updateVariable`: guard asserts (out-of-range id,
non-primary target) modelled as `InvalidArgument`; on success, `delta` is added
to `vars[id]` once per occurrence of `id` in `search(variableId, dependents)`. -/
def updateVariable (dependencies : List (List Nat)) (vars : List Int)
    (variableId : Nat) (delta : Int) : Except UpdateError (List Int) :=
  if variableId < dependencies.length then
    if (dependencies.getD variableId []).isEmpty then
      Except.ok ((search variableId (computeDependents dependencies)).foldl
        (fun vs id => vs.set id (vs.getD id 0 + delta)) vars)
    else Except.error UpdateError.invalidArgument
  else Except.error UpdateError.invalidArgument

/-- State transition of the engine under one `updateVariable` call: a rejected
call leaves the store unchanged (the asserts fire before any write). -/
def runUpdate (dependencies : List (List Nat)) (vars : List Int)
    (variableId : Nat) (delta : Int) : List Int :=
  match updateVariable dependencies vars variableId delta with
  | Except.ok vars => vars
  | Except.error _ => vars

/-- Lock/write/unlock event trace of main.cpp `VariableSystem::updateVariable`:
locks of the dependents closure acquired in `getAllDependents` order, then the
value writes, then scope-exit release in reverse construction order. -/
def updateTrace (dependencies : List (List Nat)) (variableId : Nat) : List LockEvent :=
  ((getAllDependents variableId (computeDependents dependencies)).map LockEvent.acquire)
    ++ ((search variableId (computeDependents dependencies)).map LockEvent.write)
    ++ (((getAllDependents variableId (computeDependents dependencies)).reverse).map
          LockEvent.release)

/-- main.cpp `VariableSystem::checkConsistency`: lock order is the index order
of the lock vector, i.e. ascending ids `0..size-1`. -/
def checkLockOrder (dependencies : List (List Nat)) : List Nat :=
  List.range dependencies.length

/-- main.cpp `VariableSystem::checkConsistency`: scan all ids in order, skip
primaries, compare each secondary's stored value with the accumulated sum of
its inputs; the first mismatch is the reported failure
`(index, expectedValue, actualValue)` (the assert fires there). -/
def checkConsistency (dependencies : List (List Nat)) (vars : List Int) :
    Option (Nat × Int × Int) :=
  (List.range dependencies.length).findSome? fun index =>
    if (dependencies.getD index []).isEmpty then none
    else
      if inputSum vars (dependencies.getD index []) = vars.getD index 0 then none
      else some (index, inputSum vars (dependencies.getD index []),
                 vars.getD index 0)

end VS

namespace VS1

/-- part_001 `VariableSystem::computeDependents`: for each `dependentIndex`, the
inverse adjacency records `dependencyIndex` once per occurrence
(`std::count`) of `dependentIndex` in its input list. -/
def computeDependents (dependencies : List (List Nat)) : List (List Nat) :=
  (List.range dependencies.length).map fun dependentIndex =>
    (List.range dependencies.length).flatMap fun dependencyIndex =>
      List.replicate ((dependencies.getD dependencyIndex []).count dependentIndex)
        dependencyIndex

/-- Inner loop of part_001 `VariableSystem::search`: scan the popped node's
neighbours, appending each to the result and pushing first-time visits onto the
stack. -/
def pushNbrs : List Nat → List Nat × List Nat × List Nat → List Nat × List Nat × List Nat
  | [], st => st
  | dep :: rest, (visited, result, stack) =>
    if dep ∈ visited then pushNbrs rest (visited, result ++ [dep], stack)
    else pushNbrs rest (visited ++ [dep], result ++ [dep], dep :: stack)

/-- Outer loop of part_001 `VariableSystem::search`: pop the top of the stack
and process its neighbours until the stack empties; one unit of fuel per pop. -/
def searchLoop (searchSpace : List (List Nat)) :
    Nat → List Nat × List Nat × List Nat → List Nat × List Nat
  | 0, (visited, result, _) => (visited, result)
  | fuel + 1, (visited, result, stack) =>
    match stack with
    | [] => (visited, result)
    | current :: stackRest =>
      searchLoop searchSpace fuel (pushNbrs (nbrs searchSpace current) (visited, result, stackRest))

/-- Fuel sufficient for the stack traversal (proved sufficient below). -/
def loopFuel (adj : List (List Nat)) : Nat := adj.flatten.dedup.length + 2

/-- part_001 `VariableSystem::search`: iterative stack-based duplicating
traversal from `startID`, sorted ascending at the end (`std::sort`). -/
def search (startID : Nat) (searchSpace : List (List Nat)) : List Nat :=
  List.insertionSort (· ≤ ·)
    (searchLoop searchSpace (loopFuel searchSpace) ([startID], [startID], [startID])).2

/-- part_001 `VariableSystem::getAllDependents`: the search result converted to
a `std::set<size_t>`, i.e. deduplicated; iteration order of the set is
ascending, which is the lock-acquisition order of `updateVariable`. -/
def getAllDependents (variableID : Nat) (dependents : List (List Nat)) : List Nat :=
  (search variableID dependents).dedup

/-- part_001 `VariableSystem::updateVariable`: guards as in main.cpp; locks
from the deduplicated closure; `delta` added once per occurrence of the id in
the duplicating `search(variableId, dependents)` sequence. -/
def updateVariable (dependencies : List (List Nat)) (vars : List Int)
    (variableId : Nat) (delta : Int) : Except UpdateError (List Int) :=
  if variableId < dependencies.length then
    if (dependencies.getD variableId []).isEmpty then
      Except.ok ((search variableId (computeDependents dependencies)).foldl
        (fun vs id => vs.set id (vs.getD id 0 + delta)) vars)
    else Except.error UpdateError.invalidArgument
  else Except.error UpdateError.invalidArgument

/-- State transition under one part_001 `updateVariable` call. -/
def runUpdate (dependencies : List (List Nat)) (vars : List Int)
    (variableId : Nat) (delta : Int) : List Int :=
  match updateVariable dependencies vars variableId delta with
  | Except.ok vars => vars
  | Except.error _ => vars

/-- part_001 `VariableSystem::checkConsistency`: as in main.cpp, but the
failure report also carries the full variable snapshot
(`variablesAsString()`). -/
def checkConsistency (dependencies : List (List Nat)) (vars : List Int) :
    Option (Nat × Int × Int × List Int) :=
  (List.range dependencies.length).findSome? fun index =>
    if (dependencies.getD index []).isEmpty then none
    else
      if inputSum vars (dependencies.getD index []) = vars.getD index 0 then none
      else some (index, inputSum vars (dependencies.getD index []),
                 vars.getD index 0, vars)

end VS1

namespace SS

/-- part_000 `SensorSystem::computeDependents`: textually the same find-based
inverse adjacency as main.cpp `VariableSystem::computeDependents`. -/
def computeDependents (dependencies : List (List Nat)) : List (List Nat) :=
  VS.computeDependents dependencies

/-- part_000 `SensorSystem::search`: textually the same visited-gated recursive
traversal as main.cpp `VariableSystem::uniqueSearch`. -/
def search (startID : Nat) (searchSpace : List (List Nat)) : List Nat :=
  VS.uniqueSearch startID searchSpace

/-- part_000 `SensorSystem::getAllDependents`. -/
def getAllDependents (variableID : Nat) (dependents : List (List Nat)) : List Nat :=
  search variableID dependents

/-- Lock/unlock event trace of part_000 `SensorSystem::updateVariable`: locks of
the dependents closure acquired in order and released in reverse at scope exit;
the function body contains no store write at all. -/
def updateTrace (dependencies : List (List Nat)) (variableID : Nat) : List LockEvent :=
  ((getAllDependents variableID (computeDependents dependencies)).map LockEvent.acquire)
    ++ (((getAllDependents variableID (computeDependents dependencies)).reverse).map
          LockEvent.release)

/-- part_000 `SensorSystem::updateVariable`: guards as in the other variants;
on success the store is only acted on through the (write-free) event trace. -/
def updateVariable (dependencies : List (List Nat)) (vars : List Int)
    (variableID : Nat) (delta : Int) : Except UpdateError Unit × List Int :=
  if variableID < dependencies.length then
    if (dependencies.getD variableID []).isEmpty then
      (Except.ok (), applyTrace delta (updateTrace dependencies variableID) vars)
    else (Except.error UpdateError.invalidArgument, vars)
  else (Except.error UpdateError.invalidArgument, vars)

/-- part_000 `SensorSystem` constructor: `vars.resize(size, 0)`. -/
def initialVariables (size : Nat) : List Int := List.replicate size 0

/-- part_000 `SensorSystem::checkConsistency`: scans every id, with no skip for
primaries — a primary is compared against the empty accumulated sum `0`. -/
def checkConsistency (dependencies : List (List Nat)) (vars : List Int) :
    Option (Nat × Int × Int) :=
  (List.range dependencies.length).findSome? fun index =>
    if inputSum vars (dependencies.getD index []) = vars.getD index 0 then none
    else some (index, inputSum vars (dependencies.getD index []),
               vars.getD index 0)

end SS

/-- Modelled from the spec: the full bottom-up recomputation that
incremental propagation must agree with — a secondary variable's value is the
sum (with multiplicity) of the recomputed values of its declared inputs, a
primary variable keeps its stored value.  The fuel bounds recursion depth; any
fuel at least the graph's depth computes the bottom-up fixpoint on an acyclic
graph. -/
def specRecompute (dependencies : List (List Nat)) (vars : List Int) :
    Nat → Nat → Int
  | 0, index => vars.getD index 0
  | fuel + 1, index =>
    if (dependencies.getD index []).isEmpty then vars.getD index 0
    else ((dependencies.getD index []).map (specRecompute dependencies vars fuel)).sum

/-! ### Generic list lemmas -/

theorem getD_replicate_zero (n i : Nat) : (List.replicate n (0 : Int)).getD i 0 = 0 := by
  rcases lt_or_le i n with h | h
  · rw [List.getD_eq_getElem _ _ (by simpa using h)]
    simp
  · rw [List.getD_eq_default]
    simpa using h

theorem foldl_add_shift (vars : List Int) :
    ∀ (inputs : List Nat) (a : Int),
      inputs.foldl (fun partialSum valueId => partialSum + vars.getD valueId 0) a
        = a + (inputs.map fun v => vars.getD v 0).sum := by
  intro inputs
  induction inputs with
  | nil => intro a; simp
  | cons v rest ih =>
    intro a
    rw [List.foldl_cons, ih, List.map_cons, List.sum_cons, add_assoc]

theorem inputSum_eq_sum (vars : List Int) (inputs : List Nat) :
    inputSum vars inputs = (inputs.map fun v => vars.getD v 0).sum := by
  unfold inputSum
  rw [foldl_add_shift, zero_add]

theorem getD_set_self (vars : List Int) (x : Nat) (a : Int) (hx : x < vars.length) :
    (vars.set x a).getD x 0 = a := by
  rw [List.getD_eq_getElem?_getD, List.getElem?_set_self hx]
  rfl

theorem getD_set_ne (vars : List Int) (i x : Nat) (a : Int) (h : i ≠ x) :
    (vars.set i a).getD x 0 = vars.getD x 0 := by
  rw [List.getD_eq_getElem?_getD, List.getElem?_set_ne h, ← List.getD_eq_getElem?_getD]

theorem foldl_set_length (delta : Int) :
    ∀ (ids : List Nat) (vars : List Int),
      (ids.foldl (fun vs i => vs.set i (vs.getD i 0 + delta)) vars).length = vars.length := by
  intro ids
  induction ids with
  | nil => intro vars; rfl
  | cons i rest ih =>
    intro vars
    rw [List.foldl_cons, ih, List.length_set]

theorem foldl_set_getD (delta : Int) :
    ∀ (ids : List Nat) (vars : List Int) (x : Nat), x < vars.length →
      (ids.foldl (fun vs i => vs.set i (vs.getD i 0 + delta)) vars).getD x 0
        = vars.getD x 0 + delta * ids.count x := by
  intro ids
  induction ids with
  | nil => intro vars x hx; simp
  | cons i rest ih =>
    intro vars x hx
    rw [List.foldl_cons]
    by_cases hix : i = x
    · subst hix
      rw [ih _ i (by rw [List.length_set]; exact hx),
          getD_set_self vars i _ hx, List.count_cons_self]
      push_cast
      ring
    · rw [ih _ x (by rw [List.length_set]; exact hx),
          getD_set_ne vars i x _ hix, List.count_cons_of_ne (fun h => hix h.symm)]

theorem count_eq_sum_map_count {l : List (List Nat)} :
    ∀ (V : List Nat) (x : Nat),
      (V.flatMap (nbrs l)).count x
        = (V.map fun u => (nbrs l u).count x).sum := by
  intro V x
  induction V with
  | nil => simp
  | cons u rest ih =>
    rw [List.flatMap_cons, List.count_append, List.map_cons, List.sum_cons, ih]

theorem applyTrace_no_write (delta : Int) :
    ∀ (trace : List LockEvent) (vars : List Int),
      (∀ id : Nat, LockEvent.write id ∉ trace) →
      applyTrace delta trace vars = vars := by
  intro trace
  induction trace with
  | nil => intro vars _; rfl
  | cons e rest ih =>
    intro vars h
    have he : applyEvent delta vars e = vars := by
      cases e with
      | acquire id => rfl
      | release id => rfl
      | write id => exact absurd (List.mem_cons_self _ _) (h id)
    unfold applyTrace at ih ⊢
    rw [List.foldl_cons, he]
    exact ih vars fun id => fun hm => h id (List.mem_cons_of_mem _ hm)

/-! ### Fuel accounting for the depth-first searches -/

namespace VS

theorem sum_nbrs_length (adj : List (List Nat)) :
    ∑ u ∈ Finset.range adj.length, (nbrs adj u).length = adj.flatten.length := by
  induction adj with
  | nil => simp
  | cons hd tl ih =>
    rw [List.length_cons, Finset.sum_range_succ']
    have hsucc : ∀ i : Nat, nbrs (hd :: tl) (i + 1) = nbrs tl i := fun i => rfl
    have hzero : nbrs (hd :: tl) 0 = hd := rfl
    simp only [hsucc, hzero, ih]
    rw [List.flatten_cons, List.length_append]
    omega

theorem fuelNeed_le_flatten (adj : List (List Nat)) (vis : List Nat) :
    fuelNeed adj vis ≤ adj.flatten.length := by
  have h1 : fuelNeed adj vis ≤ ∑ u ∈ Finset.range adj.length, (nbrs adj u).length := by
    apply Finset.sum_le_sum
    intro u _
    split
    · exact Nat.zero_le _
    · exact le_rfl
  rw [sum_nbrs_length] at h1
  exact h1

theorem fuelNeed_anti (adj : List (List Nat)) {vis vis2 : List Nat}
    (h : ∀ x ∈ vis, x ∈ vis2) : fuelNeed adj vis2 ≤ fuelNeed adj vis := by
  apply Finset.sum_le_sum
  intro u _
  by_cases hu : u ∈ vis
  · simp [hu, h u hu]
  · by_cases hu2 : u ∈ vis2 <;> simp [hu, hu2]

theorem nbrs_out_of_range (adj : List (List Nat)) {u : Nat} (h : adj.length ≤ u) :
    nbrs adj u = [] := by
  unfold nbrs
  rw [List.getD_eq_default]
  exact h

theorem fuelNeed_visit (adj : List (List Nat)) (vis : List Nat) (dep : Nat)
    (h : dep ∉ vis) :
    fuelNeed adj vis = (nbrs adj dep).length + fuelNeed adj (vis ++ [dep]) := by
  rcases lt_or_le dep adj.length with hdep | hdep
  · unfold fuelNeed
    rw [← Finset.add_sum_erase _ _ (Finset.mem_range.mpr hdep),
        ← Finset.add_sum_erase _ _ (Finset.mem_range.mpr hdep)]
    have h1 : (if dep ∈ vis then 0 else (nbrs adj dep).length) = (nbrs adj dep).length := by
      simp [h]
    have h2 : (if dep ∈ vis ++ [dep] then 0 else (nbrs adj dep).length) = 0 := by simp
    rw [h1, h2, zero_add]
    congr 1
    apply Finset.sum_congr rfl
    intro u hu
    have hne : u ≠ dep := (Finset.mem_erase.mp hu).1
    have : (u ∈ vis ++ [dep]) ↔ u ∈ vis := by simp [hne]
    simp [this]
  · have hn : nbrs adj dep = [] := nbrs_out_of_range adj hdep
    rw [hn]
    simp only [List.length_nil, Nat.zero_add]
    unfold fuelNeed
    apply Finset.sum_congr rfl
    intro u hu
    have hu2 : u < adj.length := Finset.mem_range.mp hu
    have hne : u ≠ dep := by omega
    have : (u ∈ vis ++ [dep]) ↔ u ∈ vis := by simp [hne]
    simp [this]

theorem nbrs_length_le (adj : List (List Nat)) (u : Nat) :
    (nbrs adj u).length ≤ adj.flatten.length := by
  rcases lt_or_le u adj.length with h | h
  · have hm : nbrs adj u ∈ adj := by
      unfold nbrs
      rw [List.getD_eq_getElem _ _ h]
      exact List.getElem_mem h
    have := List.single_le_sum (l := adj.map List.length)
      (fun x _ => Nat.zero_le x) ((nbrs adj u).length) (List.mem_map_of_mem _ hm)
    rw [List.length_flatten]
    exact this
  · rw [nbrs_out_of_range adj h]
    exact Nat.zero_le _

theorem searchFuel_ok (adj : List (List Nat)) (s : Nat) :
    (nbrs adj s).length + fuelNeed adj [s] ≤ searchFuel adj := by
  have h1 := nbrs_length_le adj s
  have h2 := fuelNeed_le_flatten adj [s]
  unfold searchFuel
  omega

theorem visitF_pre (adj : List (List Nat)) :
    ∀ (fuel : Nat) (ws vis : List Nat), ∃ t, visitF adj fuel ws vis = vis ++ t := by
  intro fuel
  induction fuel with
  | zero => intro ws vis; exact ⟨[], by simp [visitF]⟩
  | succ fuel ih =>
    intro ws vis
    cases ws with
    | nil => exact ⟨[], by simp [visitF]⟩
    | cons dep rest =>
      by_cases hdep : dep ∈ vis
      · obtain ⟨t, ht⟩ := ih rest vis
        exact ⟨t, by simp only [visitF, if_pos hdep]; exact ht⟩
      · obtain ⟨t1, ht1⟩ := ih (nbrs adj dep) (vis ++ [dep])
        obtain ⟨t2, ht2⟩ := ih rest (vis ++ [dep] ++ t1)
        refine ⟨[dep] ++ t1 ++ t2, ?_⟩
        simp only [visitF, if_neg hdep, ht1, ht2]
        simp [List.append_assoc]

theorem visitF_spec (adj : List (List Nat)) :
    ∀ (fuel : Nat) (ws vis : List Nat),
      ws.length + fuelNeed adj vis ≤ fuel →
      ∃ t, visitF adj fuel ws vis = vis ++ t ∧
        (∀ x ∈ ws, x ∈ vis ++ t) ∧
        (∀ u ∈ t, ∀ d ∈ nbrs adj u, d ∈ vis ++ t) ∧
        (∀ x ∈ t, ∃ w ∈ ws, Reaches adj w x) ∧
        (∀ x ∈ t, x ∉ vis) ∧
        (vis.Nodup → (vis ++ t).Nodup) := by
  intro fuel
  induction fuel with
  | zero =>
    intro ws vis hf
    have hws : ws = [] := by
      cases ws with
      | nil => rfl
      | cons a l => simp at hf
    subst hws
    exact ⟨[], by simp [visitF], by simp, by simp, by simp, by simp, by simp⟩
  | succ fuel ih =>
    intro ws vis hf
    cases ws with
    | nil =>
      exact ⟨[], by simp [visitF], by simp, by simp, by simp, by simp, by simp⟩
    | cons dep rest =>
      rw [List.length_cons] at hf
      by_cases hdep : dep ∈ vis
      · have hf2 : rest.length + fuelNeed adj vis ≤ fuel := by omega
        obtain ⟨t, h1, h2, h3, h4, h5, h6⟩ := ih rest vis hf2
        refine ⟨t, ?_, ?_, h3, ?_, h5, h6⟩
        · simp only [visitF, if_pos hdep]
          exact h1
        · intro x hx
          rcases List.mem_cons.mp hx with rfl | hx2
          · exact List.mem_append.mpr (Or.inl hdep)
          · exact h2 x hx2
        · intro x hx
          obtain ⟨w, hw, hr⟩ := h4 x hx
          exact ⟨w, List.mem_cons_of_mem _ hw, hr⟩
      · have hfv := fuelNeed_visit adj vis dep hdep
        have hf1 : (nbrs adj dep).length + fuelNeed adj (vis ++ [dep]) ≤ fuel := by
          omega
        obtain ⟨t1, h1a, h1b, h1c, h1d, h1e, h1f⟩ := ih (nbrs adj dep) (vis ++ [dep]) hf1
        have hanti1 : fuelNeed adj (vis ++ [dep] ++ t1) ≤ fuelNeed adj (vis ++ [dep]) :=
          fuelNeed_anti adj fun x hx => by
            simp only [List.mem_append] at hx ⊢
            tauto
        have hf2 : rest.length + fuelNeed adj (vis ++ [dep] ++ t1) ≤ fuel := by omega
        obtain ⟨t2, h2a, h2b, h2c, h2d, h2e, h2f⟩ := ih rest (vis ++ [dep] ++ t1) hf2
        have hFeq : visitF adj (fuel + 1) (dep :: rest) vis
            = vis ++ ([dep] ++ t1 ++ t2) := by
          simp only [visitF, if_neg hdep, h1a, h2a]
          simp [List.append_assoc]
        have hflat : vis ++ [dep] ++ t1 ++ t2 = vis ++ ([dep] ++ t1 ++ t2) := by
          simp [List.append_assoc]
        refine ⟨[dep] ++ t1 ++ t2, hFeq, ?_, ?_, ?_, ?_, ?_⟩
        · intro x hx
          rcases List.mem_cons.mp hx with rfl | hx2
          · simp
          · have := h2b x hx2
            rw [← hflat]
            simpa using this
        · intro u hu d hd
          rw [← hflat]
          simp only [List.mem_append, List.mem_singleton] at hu
          rcases hu with (rfl | hu1) | hu2
          · have := h1b d hd
            simp only [List.mem_append] at this ⊢
            tauto
          · have := h1c u hu1 d hd
            simp only [List.mem_append] at this ⊢
            tauto
          · have := h2c u hu2 d hd
            simp only [List.mem_append] at this ⊢
            tauto
        · intro x hx
          simp only [List.mem_append, List.mem_singleton] at hx
          rcases hx with (rfl | hx1) | hx2
          · exact ⟨x, List.mem_cons_self _ _, Relation.ReflTransGen.refl⟩
          · obtain ⟨w, hw, hr⟩ := h1d x hx1
            exact ⟨dep, List.mem_cons_self _ _, Relation.ReflTransGen.head hw hr⟩
          · obtain ⟨w, hw, hr⟩ := h2d x hx2
            exact ⟨w, List.mem_cons_of_mem _ hw, hr⟩
        · intro x hx hxv
          simp only [List.mem_append, List.mem_singleton] at hx
          rcases hx with (rfl | hx1) | hx2
          · exact hdep hxv
          · exact h1e x hx1 (by simp [hxv])
          · exact h2e x hx2 (by simp [hxv])
        · intro hnd
          have hnd1 : (vis ++ [dep]).Nodup := by
            rw [List.nodup_append]
            refine ⟨hnd, List.nodup_singleton dep, ?_⟩
            intro a ha hb
            have hadep : a = dep := by simpa using hb
            subst hadep
            exact hdep ha
          have hnd2 := h2f (h1f hnd1)
          rw [← hflat]
          exact hnd2

theorem dfsD_visit (adj : List (List Nat)) :
    ∀ (fuel : Nat) (ws vis res : List Nat),
      (dfsD adj fuel ws (vis, res)).1 = visitF adj fuel ws vis := by
  intro fuel
  induction fuel with
  | zero => intro ws vis res; simp [dfsD, visitF]
  | succ fuel ih =>
    intro ws vis res
    cases ws with
    | nil => simp [dfsD, visitF]
    | cons dep rest =>
      by_cases hdep : dep ∈ vis
      · simp only [dfsD, visitF, if_pos hdep]
        exact ih rest vis (res ++ [dep])
      · have hinner := ih (nbrs adj dep) (vis ++ [dep]) (res ++ [dep])
        simp only [dfsD, visitF, if_neg hdep]
        rcases hP : dfsD adj fuel (nbrs adj dep) (vis ++ [dep], res ++ [dep]) with ⟨a, b⟩
        rw [hP] at hinner
        have ha : a = visitF adj fuel (nbrs adj dep) (vis ++ [dep]) := hinner
        rw [← ha]
        exact ih rest a b

theorem dfsU_visit (adj : List (List Nat)) :
    ∀ (fuel : Nat) (ws vis res : List Nat),
      (dfsU adj fuel ws (vis, res)).1 = visitF adj fuel ws vis := by
  intro fuel
  induction fuel with
  | zero => intro ws vis res; simp [dfsU, visitF]
  | succ fuel ih =>
    intro ws vis res
    cases ws with
    | nil => simp [dfsU, visitF]
    | cons dep rest =>
      by_cases hdep : dep ∈ vis
      · simp only [dfsU, visitF, if_pos hdep]
        exact ih rest vis res
      · have hinner := ih (nbrs adj dep) (vis ++ [dep]) res
        simp only [dfsU, visitF, if_neg hdep]
        rcases hP : dfsU adj fuel (nbrs adj dep) (vis ++ [dep], res) with ⟨a, b⟩
        rw [hP] at hinner
        have ha : a = visitF adj fuel (nbrs adj dep) (vis ++ [dep]) := hinner
        rw [← ha]
        exact ih rest a (b ++ [dep])

theorem dfsU_res (adj : List (List Nat)) :
    ∀ (fuel : Nat) (ws vis res : List Nat),
      (dfsU adj fuel ws (vis, res)).2.Perm
        (res ++ (visitF adj fuel ws vis).drop vis.length) := by
  intro fuel
  induction fuel with
  | zero => intro ws vis res; simp [dfsU, visitF]
  | succ fuel ih =>
    intro ws vis res
    cases ws with
    | nil => simp [dfsU, visitF]
    | cons dep rest =>
      by_cases hdep : dep ∈ vis
      · simp only [dfsU, visitF, if_pos hdep]
        exact ih rest vis res
      · simp only [dfsU, visitF, if_neg hdep]
        obtain ⟨t1, ht1⟩ := visitF_pre adj fuel (nbrs adj dep) (vis ++ [dep])
        obtain ⟨t2, ht2⟩ := visitF_pre adj fuel rest (vis ++ [dep] ++ t1)
        rcases hP : dfsU adj fuel (nbrs adj dep) (vis ++ [dep], res) with ⟨a, b⟩
        have ha : a = vis ++ [dep] ++ t1 := by
          have h0 := dfsU_visit adj fuel (nbrs adj dep) (vis ++ [dep]) res
          rw [hP] at h0
          have : a = visitF adj fuel (nbrs adj dep) (vis ++ [dep]) := h0
          rw [this, ht1]
        have hb : b.Perm (res ++ t1) := by
          have h0 := ih (nbrs adj dep) (vis ++ [dep]) res
          rw [hP] at h0
          have h1 : b.Perm (res ++ (visitF adj fuel (nbrs adj dep)
              (vis ++ [dep])).drop (vis ++ [dep]).length) := h0
          rw [ht1, List.drop_left] at h1
          exact h1
        have hfin := ih rest a (b ++ [dep])
        have ht2a : visitF adj fuel rest a = a ++ t2 := by rw [ha]; exact ht2
        rw [ht2a, List.drop_left] at hfin
        have hgoal : ((b ++ [dep]) ++ t2).Perm (res ++ ([dep] ++ t1 ++ t2)) := by
          rw [List.perm_iff_count]
          intro x
          have hcb := hb.count_eq x
          simp only [List.count_append] at hcb ⊢
          omega
        have hdrop : (visitF adj fuel rest (visitF adj fuel (nbrs adj dep)
            (vis ++ [dep]))).drop vis.length = [dep] ++ t1 ++ t2 := by
          rw [ht1, ht2]
          have : vis ++ [dep] ++ t1 ++ t2 = vis ++ ([dep] ++ t1 ++ t2) := by
            simp [List.append_assoc]
          rw [this, List.drop_left]
        rw [hdrop]
        exact hfin.trans hgoal

theorem dfsD_res (adj : List (List Nat)) :
    ∀ (fuel : Nat) (ws vis res : List Nat),
      ws.length + fuelNeed adj vis ≤ fuel →
      (dfsD adj fuel ws (vis, res)).2.Perm
        (res ++ ws ++ ((visitF adj fuel ws vis).drop vis.length).flatMap (nbrs adj)) := by
  intro fuel
  induction fuel with
  | zero =>
    intro ws vis res hf
    have hws : ws = [] := by
      cases ws with
      | nil => rfl
      | cons a l => simp at hf
    subst hws
    simp [dfsD, visitF]
  | succ fuel ih =>
    intro ws vis res hf
    cases ws with
    | nil => simp [dfsD, visitF]
    | cons dep rest =>
      rw [List.length_cons] at hf
      by_cases hdep : dep ∈ vis
      · have hf2 : rest.length + fuelNeed adj vis ≤ fuel := by omega
        simp only [dfsD, visitF, if_pos hdep]
        have h0 := ih rest vis (res ++ [dep]) hf2
        refine h0.trans ?_
        rw [List.perm_iff_count]
        intro x
        simp only [List.count_append, List.count_cons, List.count_singleton, List.count_nil]
        omega
      · have hfv := fuelNeed_visit adj vis dep hdep
        have hf1 : (nbrs adj dep).length + fuelNeed adj (vis ++ [dep]) ≤ fuel := by omega
        simp only [dfsD, visitF, if_neg hdep]
        obtain ⟨t1, ht1⟩ := visitF_pre adj fuel (nbrs adj dep) (vis ++ [dep])
        obtain ⟨t2, ht2⟩ := visitF_pre adj fuel rest (vis ++ [dep] ++ t1)
        rcases hP : dfsD adj fuel (nbrs adj dep) (vis ++ [dep], res ++ [dep]) with ⟨a, b⟩
        have ha : a = vis ++ [dep] ++ t1 := by
          have h0 := dfsD_visit adj fuel (nbrs adj dep) (vis ++ [dep]) (res ++ [dep])
          rw [hP] at h0
          have : a = visitF adj fuel (nbrs adj dep) (vis ++ [dep]) := h0
          rw [this, ht1]
        have hb : b.Perm ((res ++ [dep]) ++ nbrs adj dep ++ t1.flatMap (nbrs adj)) := by
          have h0 := ih (nbrs adj dep) (vis ++ [dep]) (res ++ [dep]) hf1
          rw [hP] at h0
          have h1 : b.Perm ((res ++ [dep]) ++ nbrs adj dep
              ++ ((visitF adj fuel (nbrs adj dep) (vis ++ [dep])).drop
                   (vis ++ [dep]).length).flatMap (nbrs adj)) := h0
          rw [ht1, List.drop_left] at h1
          exact h1
        have hvt1 : ∀ x ∈ vis, x ∈ vis ++ [dep] ++ t1 := fun x hx => by
          simp only [List.mem_append]
          tauto
        have hanti1 : fuelNeed adj (vis ++ [dep] ++ t1) ≤ fuelNeed adj (vis ++ [dep]) :=
          fuelNeed_anti adj fun x hx => by
            simp only [List.mem_append] at hx ⊢
            tauto
        have hf2 : rest.length + fuelNeed adj a ≤ fuel := by rw [ha]; omega
        have hfin := ih rest a b hf2
        have ht2a : visitF adj fuel rest a = a ++ t2 := by rw [ha]; exact ht2
        rw [ht2a, List.drop_left] at hfin
        have hdrop : (visitF adj fuel rest (visitF adj fuel (nbrs adj dep)
            (vis ++ [dep]))).drop vis.length = [dep] ++ t1 ++ t2 := by
          rw [ht1, ht2]
          have : vis ++ [dep] ++ t1 ++ t2 = vis ++ ([dep] ++ t1 ++ t2) := by
            simp [List.append_assoc]
          rw [this, List.drop_left]
        rw [hdrop]
        refine hfin.trans ?_
        rw [List.perm_iff_count]
        intro x
        have hcb := hb.count_eq x
        simp only [List.count_append, List.count_cons, List.count_singleton, List.count_nil,
          List.flatMap_append, List.flatMap_cons, List.flatMap_nil,
          List.append_nil] at hcb ⊢
        omega

/-! ### Characterisation of the main.cpp searches -/

theorem visit_top_spec (adj : List (List Nat)) (s : Nat) :
    ((visitF adj (searchFuel adj) (nbrs adj s) [s]).Nodup) ∧
    (∀ x, x ∈ visitF adj (searchFuel adj) (nbrs adj s) [s] ↔ Reaches adj s x) := by
  obtain ⟨t, h1, h2, h3, h4, h5, h6⟩ :=
    visitF_spec adj (searchFuel adj) (nbrs adj s) [s] (searchFuel_ok adj s)
  constructor
  · rw [h1]
    exact h6 (List.nodup_singleton s)
  · intro x
    rw [h1]
    constructor
    · intro hx
      rcases List.mem_append.mp hx with hx1 | hx2
      · have hxs : x = s := by simpa using hx1
        subst hxs
        exact Relation.ReflTransGen.refl
      · obtain ⟨w, hw, hr⟩ := h4 x hx2
        exact Relation.ReflTransGen.head hw hr
    · intro hr
      induction hr with
      | refl => simp
      | @tail b c hab hbc ihb =>
        rcases List.mem_append.mp ihb with hb1 | hb2
        · have hbs : b = s := by simpa using hb1
          subst hbs
          exact h2 c hbc
        · exact h3 b hb2 c hbc

theorem search_perm (s : Nat) (adj : List (List Nat)) :
    (search s adj).Perm
      (s :: (visitF adj (searchFuel adj) (nbrs adj s) [s]).flatMap (nbrs adj)) := by
  unfold search
  refine (List.perm_insertionSort _ _).trans ?_
  obtain ⟨t, h1⟩ := visitF_pre adj (searchFuel adj) (nbrs adj s) [s]
  have h0 := dfsD_res adj (searchFuel adj) (nbrs adj s) [s] [s] (searchFuel_ok adj s)
  rw [h1, List.drop_left] at h0
  rw [h1]
  refine h0.trans ?_
  rw [List.perm_iff_count]
  intro x
  simp only [List.singleton_append, List.flatMap_cons, List.count_append,
    List.count_cons, List.count_singleton, List.count_nil]
  omega

theorem uniqueSearch_perm (s : Nat) (adj : List (List Nat)) :
    (uniqueSearch s adj).Perm (visitF adj (searchFuel adj) (nbrs adj s) [s]) := by
  unfold uniqueSearch
  refine (List.perm_insertionSort _ _).trans ?_
  obtain ⟨t, h1⟩ := visitF_pre adj (searchFuel adj) (nbrs adj s) [s]
  have h0 := dfsU_res adj (searchFuel adj) (nbrs adj s) [s] [s]
  rw [h1, List.drop_left] at h0
  rw [h1]
  exact h0

theorem uniqueSearch_nodup (s : Nat) (adj : List (List Nat)) :
    (uniqueSearch s adj).Nodup :=
  (uniqueSearch_perm s adj).nodup_iff.mpr (visit_top_spec adj s).1

theorem uniqueSearch_sorted (s : Nat) (adj : List (List Nat)) :
    List.Sorted (· ≤ ·) (uniqueSearch s adj) :=
  List.sorted_insertionSort _ _

theorem uniqueSearch_sorted_lt (s : Nat) (adj : List (List Nat)) :
    List.Sorted (· < ·) (uniqueSearch s adj) :=
  (uniqueSearch_sorted s adj).lt_of_le (uniqueSearch_nodup s adj)

theorem uniqueSearch_mem (s : Nat) (adj : List (List Nat)) (x : Nat) :
    x ∈ uniqueSearch s adj ↔ Reaches adj s x :=
  ((uniqueSearch_perm s adj).mem_iff).trans ((visit_top_spec adj s).2 x)

theorem search_sorted (s : Nat) (adj : List (List Nat)) :
    List.Sorted (· ≤ ·) (search s adj) :=
  List.sorted_insertionSort _ _

theorem search_mem (s : Nat) (adj : List (List Nat)) (x : Nat) :
    x ∈ search s adj ↔ Reaches adj s x := by
  rw [(search_perm s adj).mem_iff]
  constructor
  · intro hx
    rcases List.mem_cons.mp hx with rfl | hx2
    · exact Relation.ReflTransGen.refl
    · obtain ⟨u, hu, hxu⟩ := List.mem_flatMap.mp hx2
      have hru : Reaches adj s u := ((visit_top_spec adj s).2 u).mp hu
      exact Relation.ReflTransGen.tail hru hxu
  · intro hr
    rcases Relation.ReflTransGen.cases_tail hr with rfl | ⟨c, hsc, hcx⟩
    · exact List.mem_cons_self _ _
    · refine List.mem_cons_of_mem _ (List.mem_flatMap.mpr ⟨c, ?_, hcx⟩)
      exact ((visit_top_spec adj s).2 c).mpr hsc

theorem search_count (s : Nat) (adj : List (List Nat)) (x : Nat) :
    (search s adj).count x
      = (if x = s then 1 else 0)
        + ((uniqueSearch s adj).map fun u => (nbrs adj u).count x).sum := by
  rw [(search_perm s adj).count_eq x]
  have hmap : ((visitF adj (searchFuel adj) (nbrs adj s) [s]).map
        fun u => (nbrs adj u).count x).sum
      = ((uniqueSearch s adj).map fun u => (nbrs adj u).count x).sum :=
    (((uniqueSearch_perm s adj).map _).sum_eq).symm
  rw [List.count_cons, count_eq_sum_map_count, hmap]
  by_cases hxs : x = s
  · simp [hxs, Nat.add_comm]
  · have hsx : ¬s = x := fun h => hxs h.symm
    simp [hxs, hsx]

theorem mem_nbrs_mem_flatten (adj : List (List Nat)) {u x : Nat}
    (hx : x ∈ nbrs adj u) : x ∈ adj.flatten := by
  rcases lt_or_le u adj.length with h | h
  · have hm : nbrs adj u ∈ adj := by
      unfold nbrs
      rw [List.getD_eq_getElem _ _ h]
      exact List.getElem_mem h
    exact List.mem_flatten.mpr ⟨_, hm, hx⟩
  · rw [nbrs_out_of_range adj h] at hx
    cases hx

end VS

namespace VS1

theorem card_inter_append {vis Δp : List Nat} {U : Finset Nat}
    (hnd : (vis ++ Δp).Nodup) (hsub : ∀ x ∈ Δp, x ∈ U) :
    ((vis ++ Δp).toFinset ∩ U).card = (vis.toFinset ∩ U).card + Δp.length := by
  obtain ⟨hnd1, hnd2, hdisj⟩ := List.nodup_append.mp hnd
  rw [List.toFinset_append, Finset.union_inter_distrib_right]
  have hΔU : Δp.toFinset ∩ U = Δp.toFinset :=
    Finset.inter_eq_left.mpr fun x hx => hsub x (List.mem_toFinset.mp hx)
  rw [hΔU, Finset.card_union_of_disjoint ?hdis]
  case hdis =>
    rw [Finset.disjoint_left]
    intro a ha haΔ
    have h1 : a ∈ vis := List.mem_toFinset.mp (Finset.mem_of_mem_inter_left ha)
    have h2 : a ∈ Δp := List.mem_toFinset.mp haΔ
    exact hdisj h1 h2
  rw [List.card_toFinset, hnd2.dedup]

theorem pushNbrs_spec :
    ∀ (L vis res stk : List Nat), ∃ Δp,
      pushNbrs L (vis, res, stk) = (vis ++ Δp, res ++ L, Δp.reverse ++ stk) ∧
      (∀ x ∈ Δp, x ∈ L ∧ x ∉ vis) ∧
      (∀ x ∈ L, x ∈ vis ++ Δp) ∧
      (vis.Nodup → (vis ++ Δp).Nodup) := by
  intro L
  induction L with
  | nil =>
    intro vis res stk
    exact ⟨[], by simp [pushNbrs], by simp, by simp, by simp⟩
  | cons dep rest ih =>
    intro vis res stk
    by_cases hdep : dep ∈ vis
    · obtain ⟨Δp, h1, h2, h3, h4⟩ := ih vis (res ++ [dep]) stk
      refine ⟨Δp, ?_, ?_, ?_, h4⟩
      · simp only [pushNbrs, if_pos hdep]
        rw [h1]
        simp [List.append_assoc]
      · exact fun x hx => ⟨List.mem_cons_of_mem _ (h2 x hx).1, (h2 x hx).2⟩
      · intro x hx
        rcases List.mem_cons.mp hx with rfl | hx2
        · exact List.mem_append.mpr (Or.inl hdep)
        · exact h3 x hx2
    · obtain ⟨Δp, h1, h2, h3, h4⟩ := ih (vis ++ [dep]) (res ++ [dep]) (dep :: stk)
      refine ⟨[dep] ++ Δp, ?_, ?_, ?_, ?_⟩
      · simp only [pushNbrs, if_neg hdep]
        rw [h1]
        simp [List.append_assoc, List.reverse_append]
      · intro x hx
        rcases List.mem_append.mp hx with hx1 | hx2
        · have hxd : x = dep := by simpa using hx1
          subst hxd
          exact ⟨List.mem_cons_self _ _, hdep⟩
        · have h5 := h2 x hx2
          refine ⟨List.mem_cons_of_mem _ h5.1, fun hv => h5.2 ?_⟩
          simp [hv]
      · intro x hx
        rcases List.mem_cons.mp hx with rfl | hx2
        · simp
        · have h5 := h3 x hx2
          simp only [List.mem_append, List.mem_singleton] at h5 ⊢
          tauto
      · intro hnd
        have hnd1 : (vis ++ [dep]).Nodup := by
          rw [List.nodup_append]
          refine ⟨hnd, List.nodup_singleton dep, ?_⟩
          intro a ha hb
          have hadep : a = dep := by simpa using hb
          subst hadep
          exact hdep ha
        have := h4 hnd1
        simpa [List.append_assoc] using this

theorem searchLoop_spec (adj : List (List Nat)) :
    ∀ (fuel : Nat) (vis res stk : List Nat),
      stk.length + adj.flatten.toFinset.card
        ≤ fuel + (vis.toFinset ∩ adj.flatten.toFinset).card →
      (∀ x ∈ stk, x ∈ vis) →
      (∀ u ∈ vis, u ∉ stk → ∀ d ∈ nbrs adj u, d ∈ vis) →
      vis.Nodup →
      ∃ Δ, (searchLoop adj fuel (vis, res, stk)).1 = vis ++ Δ ∧
        (searchLoop adj fuel (vis, res, stk)).2.Perm
          (res ++ (stk ++ Δ).flatMap (nbrs adj)) ∧
        (∀ u ∈ vis ++ Δ, ∀ d ∈ nbrs adj u, d ∈ vis ++ Δ) ∧
        (∀ x ∈ Δ, ∃ w ∈ stk, Reaches adj w x) ∧
        (∀ x ∈ Δ, x ∉ vis) ∧
        ((vis ++ Δ).Nodup) := by
  intro fuel
  induction fuel with
  | zero =>
    intro vis res stk hfuel hstk hclosed hnd
    have hcard : (vis.toFinset ∩ adj.flatten.toFinset).card
        ≤ adj.flatten.toFinset.card :=
      Finset.card_le_card (Finset.inter_subset_right)
    have hstk0 : stk = [] := by
      cases stk with
      | nil => rfl
      | cons a l => simp only [List.length_cons] at hfuel; omega
    subst hstk0
    refine ⟨[], by simp [searchLoop], by simp [searchLoop], ?_, by simp, by simp,
      by simpa using hnd⟩
    intro u hu d hd
    simp only [List.append_nil] at hu ⊢
    exact hclosed u hu (by simp) d hd
  | succ fuel ih =>
    intro vis res stk hfuel hstk hclosed hnd
    cases stk with
    | nil =>
      refine ⟨[], by simp [searchLoop], by simp [searchLoop], ?_, by simp, by simp,
        by simpa using hnd⟩
      intro u hu d hd
      simp only [List.append_nil] at hu ⊢
      exact hclosed u hu (by simp) d hd
    | cons current stackRest =>
      obtain ⟨Δp, hp1, hp2, hp3, hp4⟩ := pushNbrs_spec (nbrs adj current) vis res stackRest
      have hΔpU : ∀ x ∈ Δp, x ∈ adj.flatten.toFinset := fun x hx =>
        List.mem_toFinset.mpr (VS.mem_nbrs_mem_flatten adj (hp2 x hx).1)
      have hnd2 : (vis ++ Δp).Nodup := hp4 hnd
      have hfuel2 : (Δp.reverse ++ stackRest).length + adj.flatten.toFinset.card
          ≤ fuel + ((vis ++ Δp).toFinset ∩ adj.flatten.toFinset).card := by
        rw [card_inter_append hnd2 hΔpU]
        simp only [List.length_append, List.length_reverse, List.length_cons] at hfuel ⊢
        omega
      have hstk2 : ∀ x ∈ Δp.reverse ++ stackRest, x ∈ vis ++ Δp := by
        intro x hx
        rcases List.mem_append.mp hx with hx1 | hx2
        · exact List.mem_append.mpr (Or.inr (List.mem_reverse.mp hx1))
        · exact List.mem_append.mpr (Or.inl (hstk x (List.mem_cons_of_mem _ hx2)))
      have hclosed2 : ∀ u ∈ vis ++ Δp, u ∉ Δp.reverse ++ stackRest →
          ∀ d ∈ nbrs adj u, d ∈ vis ++ Δp := by
        intro u hu hustk d hd
        rcases List.mem_append.mp hu with hu1 | hu2
        · by_cases hcur : u = current
          · subst hcur
            exact hp3 d hd
          · have hnotin : u ∉ stackRest := fun hm =>
              hustk (List.mem_append.mpr (Or.inr hm))
            have hnotstk : u ∉ current :: stackRest := by
              intro hm
              rcases List.mem_cons.mp hm with h | h
              · exact hcur h
              · exact hnotin h
            exact List.mem_append.mpr (Or.inl (hclosed u hu1 hnotstk d hd))
        · exact absurd (List.mem_append.mpr (Or.inl (List.mem_reverse.mpr hu2))) hustk
      obtain ⟨Δr, h1, h2, h3, h4, h5, h6⟩ :=
        ih (vis ++ Δp) (res ++ nbrs adj current) (Δp.reverse ++ stackRest)
          hfuel2 hstk2 hclosed2 hnd2
      have hloop : searchLoop adj (fuel + 1) (vis, res, current :: stackRest)
          = searchLoop adj fuel (vis ++ Δp, res ++ nbrs adj current,
              Δp.reverse ++ stackRest) := by
        simp only [searchLoop, hp1]
      refine ⟨Δp ++ Δr, ?_, ?_, ?_, ?_, ?_, ?_⟩
      · rw [hloop, h1, List.append_assoc]
      · rw [hloop]
        refine h2.trans ?_
        rw [List.perm_iff_count]
        intro x
        have hrc : ∀ y : Nat, (Δp.reverse.flatMap (nbrs adj)).count y
            = (Δp.flatMap (nbrs adj)).count y := fun y =>
          ((Δp.reverse_perm).flatMap_right (nbrs adj)).count_eq y
        simp only [List.flatMap_append, List.flatMap_cons, List.count_append, hrc]
        omega
      · intro u hu d hd
        have hu2 : u ∈ (vis ++ Δp) ++ Δr := by
          simp only [List.mem_append] at hu ⊢
          tauto
        have := h3 u hu2 d hd
        simp only [List.mem_append] at this ⊢
        tauto
      · intro x hx
        rcases List.mem_append.mp hx with hx1 | hx2
        · refine ⟨current, List.mem_cons_self _ _, ?_⟩
          exact Relation.ReflTransGen.single (hp2 x hx1).1
        · obtain ⟨w, hw, hr⟩ := h4 x hx2
          rcases List.mem_append.mp hw with hw1 | hw2
          · have hwΔp : w ∈ Δp := List.mem_reverse.mp hw1
            refine ⟨current, List.mem_cons_self _ _, ?_⟩
            exact Relation.ReflTransGen.head (hp2 w hwΔp).1 hr
          · exact ⟨w, List.mem_cons_of_mem _ hw2, hr⟩
      · intro x hx
        rcases List.mem_append.mp hx with hx1 | hx2
        · exact (hp2 x hx1).2
        · intro hv
          exact h5 x hx2 (List.mem_append.mpr (Or.inl hv))
      · have := h6
        simpa [List.append_assoc] using this

theorem loop_top_facts (adj : List (List Nat)) (s : Nat) :
    ((searchLoop adj (loopFuel adj) ([s], [s], [s])).1.Nodup) ∧
    (∀ x, x ∈ (searchLoop adj (loopFuel adj) ([s], [s], [s])).1 ↔ Reaches adj s x) ∧
    (searchLoop adj (loopFuel adj) ([s], [s], [s])).2.Perm
      (s :: ((searchLoop adj (loopFuel adj) ([s], [s], [s])).1).flatMap (nbrs adj)) := by
  have hfuel : ([s] : List Nat).length + adj.flatten.toFinset.card
      ≤ loopFuel adj + (([s] : List Nat).toFinset ∩ adj.flatten.toFinset).card := by
    unfold loopFuel
    rw [List.card_toFinset]
    simp only [List.length_singleton]
    omega
  obtain ⟨Δ, h1, h2, h3, h4, h5, h6⟩ := searchLoop_spec adj (loopFuel adj) [s] [s] [s]
    hfuel (fun x hx => hx) (fun u hu hustk => absurd hu hustk) (List.nodup_singleton s)
  refine ⟨?_, ?_, ?_⟩
  · rw [h1]
    exact h6
  · intro x
    rw [h1]
    constructor
    · intro hx
      rcases List.mem_append.mp hx with hx1 | hx2
      · have hxs : x = s := by simpa using hx1
        subst hxs
        exact Relation.ReflTransGen.refl
      · obtain ⟨w, hw, hr⟩ := h4 x hx2
        have hws : w = s := by simpa using hw
        subst hws
        exact hr
    · intro hr
      induction hr with
      | refl => simp
      | @tail b c hab hbc ihb => exact h3 b ihb c hbc
  · rw [h1]
    refine h2.trans ?_
    simp only [List.singleton_append]
    exact List.Perm.refl _

theorem search1_eq_searchVS (s : Nat) (adj : List (List Nat)) :
    search s adj = VS.search s adj := by
  obtain ⟨hnd1, hmem1, hperm1⟩ := loop_top_facts adj s
  have hVperm : ((searchLoop adj (loopFuel adj) ([s], [s], [s])).1).Perm
      (VS.visitF adj (VS.searchFuel adj) (nbrs adj s) [s]) := by
    rw [List.perm_ext_iff_of_nodup hnd1 (VS.visit_top_spec adj s).1]
    intro a
    rw [hmem1 a, (VS.visit_top_spec adj s).2 a]
  have h1 : (search s adj).Perm
      (s :: ((searchLoop adj (loopFuel adj) ([s], [s], [s])).1).flatMap (nbrs adj)) := by
    unfold search
    exact (List.perm_insertionSort _ _).trans hperm1
  have h2 := VS.search_perm s adj
  have hmid := (hVperm.flatMap_right (nbrs adj)).cons s
  exact List.eq_of_perm_of_sorted (h1.trans (hmid.trans h2.symm))
    (List.sorted_insertionSort _ _) (List.sorted_insertionSort _ _)

theorem search1_sorted (s : Nat) (adj : List (List Nat)) :
    List.Sorted (· ≤ ·) (search s adj) :=
  List.sorted_insertionSort _ _

theorem getAllDependents_sorted_lt (variableID : Nat) (dependents : List (List Nat)) :
    List.Sorted (· < ·) (getAllDependents variableID dependents) := by
  unfold getAllDependents
  have hle : List.Sorted (· ≤ ·) ((search variableID dependents).dedup) :=
    List.Pairwise.sublist (List.dedup_sublist _) (search1_sorted variableID dependents)
  exact hle.lt_of_le (List.nodup_dedup _)

end VS1

/-! ### Consistency-check characterisations -/

theorem checkVS_none_iff (deps : List (List Nat)) (vars : List Int) :
    VS.checkConsistency deps vars = none ↔
      ∀ i < deps.length, ¬(deps.getD i []).isEmpty = true →
        inputSum vars (deps.getD i []) = vars.getD i 0 := by
  unfold VS.checkConsistency
  rw [List.findSome?_eq_none_iff]
  constructor
  · intro h i hi hne
    have h2 := h i (List.mem_range.mpr hi)
    by_contra hne2
    rw [if_neg hne, if_neg hne2] at h2
    exact Option.some_ne_none _ h2
  · intro h i hi
    have hi2 := List.mem_range.mp hi
    by_cases hemp : (deps.getD i []).isEmpty = true
    · rw [if_pos hemp]
    · rw [if_neg hemp, if_pos (h i hi2 hemp)]

theorem check1_none_iff (deps : List (List Nat)) (vars : List Int) :
    VS1.checkConsistency deps vars = none ↔
      ∀ i < deps.length, ¬(deps.getD i []).isEmpty = true →
        inputSum vars (deps.getD i []) = vars.getD i 0 := by
  unfold VS1.checkConsistency
  rw [List.findSome?_eq_none_iff]
  constructor
  · intro h i hi hne
    have h2 := h i (List.mem_range.mpr hi)
    by_contra hne2
    rw [if_neg hne, if_neg hne2] at h2
    exact Option.some_ne_none _ h2
  · intro h i hi
    have hi2 := List.mem_range.mp hi
    by_cases hemp : (deps.getD i []).isEmpty = true
    · rw [if_pos hemp]
    · rw [if_neg hemp, if_pos (h i hi2 hemp)]

theorem check1_some_props (deps : List (List Nat)) (vars : List Int)
    (r : Nat × Int × Int × List Int) :
    VS1.checkConsistency deps vars = some r →
      r.1 < deps.length ∧ ¬(deps.getD r.1 []).isEmpty = true ∧
      r.2.1 = inputSum vars (deps.getD r.1 []) ∧
      r.2.2.1 = vars.getD r.1 0 ∧ r.2.2.2 = vars ∧ r.2.1 ≠ r.2.2.1 := by
  intro h
  unfold VS1.checkConsistency at h
  obtain ⟨i, hi, hf⟩ := List.exists_of_findSome?_eq_some h
  by_cases hemp : (deps.getD i []).isEmpty = true
  · rw [if_pos hemp] at hf
    cases hf
  · by_cases heq : inputSum vars (deps.getD i []) = vars.getD i 0
    · rw [if_neg hemp, if_pos heq] at hf
      cases hf
    · rw [if_neg hemp, if_neg heq] at hf
      have hr : (i, inputSum vars (deps.getD i []), vars.getD i 0, vars) = r :=
        Option.some.inj hf
      subst hr
      exact ⟨List.mem_range.mp hi, hemp, rfl, rfl, rfl, heq⟩

theorem checkSS_none_iff (deps : List (List Nat)) (vars : List Int) :
    SS.checkConsistency deps vars = none ↔
      ∀ i < deps.length, inputSum vars (deps.getD i []) = vars.getD i 0 := by
  unfold SS.checkConsistency
  rw [List.findSome?_eq_none_iff]
  constructor
  · intro h i hi
    have h2 := h i (List.mem_range.mpr hi)
    by_contra hne2
    rw [if_neg hne2] at h2
    exact Option.some_ne_none _ h2
  · intro h i hi
    rw [if_pos (h i (List.mem_range.mp hi))]

/-! ### Event-trace lemmas -/

theorem ssTrace_no_write (deps : List (List Nat)) (id : Nat) :
    ∀ w : Nat, LockEvent.write w ∉ SS.updateTrace deps id := by
  intro w hm
  unfold SS.updateTrace at hm
  rcases List.mem_append.mp hm with h | h
  · obtain ⟨a, _, ha⟩ := List.mem_map.mp h
    cases ha
  · obtain ⟨a, _, ha⟩ := List.mem_map.mp h
    cases ha

theorem ss_update_state (deps : List (List Nat)) (vars : List Int)
    (id : Nat) (delta : Int) :
    (SS.updateVariable deps vars id delta).2 = vars := by
  unfold SS.updateVariable
  by_cases h1 : id < deps.length
  · rw [if_pos h1]
    by_cases h2 : (deps.getD id []).isEmpty = true
    · rw [if_pos h2]
      exact applyTrace_no_write delta _ vars fun w => ssTrace_no_write deps id w
    · rw [if_neg h2]
  · rw [if_neg h1]

theorem ss_run_all (deps : List (List Nat)) :
    ∀ (calls : List (Nat × Int)) (vars : List Int),
      calls.foldl (fun vs c => (SS.updateVariable deps vs c.1 c.2).2) vars = vars := by
  intro calls
  induction calls with
  | nil => intro vars; rfl
  | cons c rest ih =>
    intro vars
    rw [List.foldl_cons, ss_update_state]
    exact ih vars

/-! ### Claim theorems -/

/-- C1: the claimed invariant — in every reachable quiescent state each secondary
variable stores the sum of its inputs (with multiplicity) — fails on the code.
On the acyclic graph `[[],[0],[0],[1,2],[3]]`, starting from the all-zero store,
the single primary update `update(0, 1)` leaves both `VariableSystem` variants in
a quiescent state with `value(4) = 1` while `value(3) = 2` is the sum of `4`'s
inputs; the engines' own consistency check reports exactly this violation. -/
theorem claim_C1_invariant_fails :
    VS.runUpdate [[], [0], [0], [1, 2], [3]] (VS.createVariables 5) 0 1
      = [1, 1, 1, 2, 1] ∧
    VS.checkConsistency [[], [0], [0], [1, 2], [3]] [1, 1, 1, 2, 1]
      = some (4, 2, 1) ∧
    VS1.runUpdate [[], [0], [0], [1, 2], [3]] (VS.createVariables 5) 0 1
      = [1, 1, 1, 2, 1] ∧
    VS1.checkConsistency [[], [0], [0], [1, 2], [3]] [1, 1, 1, 2, 1]
      = some (4, 2, 1, [1, 1, 1, 2, 1]) := by
  refine ⟨?_, ?_, ?_, ?_⟩ <;> decide

/-- C2: incremental delta propagation does not always agree with the spec's full
bottom-up recomputation.  After `update(0, 1)` on `[[],[0],[0],[1,2],[3]]` the
incremental engine stores `1` at variable `4`, while bottom-up recomputation
from the same primary values yields `2`. -/
theorem claim_C2_incremental_diverges :
    VS.runUpdate [[], [0], [0], [1, 2], [3]] (VS.createVariables 5) 0 1
      = [1, 1, 1, 2, 1] ∧
    specRecompute [[], [0], [0], [1, 2], [3]] [1, 1, 1, 2, 1] 5 4 = 2 ∧
    ([1, 1, 1, 2, 1] : List Int).getD 4 0 = 1 := by
  refine ⟨?_, ?_, ?_⟩ <;> decide

/-- C3 (counterexample): the delta is not always applied exactly once per distinct
id of the dependents closure.  On the diamond graph `[[],[0],[0],[1,2]]`,
`update(0, 1)` changes the stored value of variable `3` by `2`, i.e. the delta is
added to the same stored value twice (once per inverse edge reaching `3`). -/
theorem claim_C3_counterexample :
    VS.runUpdate [[], [0], [0], [1, 2]] [0, 0, 0, 0] 0 1 = [1, 1, 1, 2] ∧
    (VS.runUpdate [[], [0], [0], [1, 2]] [0, 0, 0, 0] 0 1).getD 3 0
      ≠ ([0, 0, 0, 0] : List Int).getD 3 0 + 1 := by
  refine ⟨?_, ?_⟩ <;> decide

/-- C3 (amended): during `update(id, delta)` on a valid primary id, the delta is
added to a variable `x`'s stored value once per occurrence of `x` in the
duplicating `search(id, dependents)` sequence: once if `x` is the updated id
itself, plus once per inverse-dependency edge leading to `x` from a member of
the dependents closure — which can exceed once per distinct id, so the
multiplicity is carried by repeated application of the delta, not only by the
graph structure. -/
theorem claim_C3_amended (deps : List (List Nat)) (vars : List Int)
    (id : Nat) (delta : Int) (x : Nat)
    (hid : id < deps.length) (hprim : (deps.getD id []).isEmpty = true)
    (hx : x < vars.length) :
    VS.updateVariable deps vars id delta = Except.ok (VS.runUpdate deps vars id delta) ∧
    (VS.runUpdate deps vars id delta).getD x 0
      = vars.getD x 0 + delta *
        (((if x = id then 1 else 0)
          + ((VS.getAllDependents id (VS.computeDependents deps)).map
               fun u => (nbrs (VS.computeDependents deps) u).count x).sum : Nat) : Int) := by
  have hok : VS.updateVariable deps vars id delta
      = Except.ok ((VS.search id (VS.computeDependents deps)).foldl
          (fun vs i => vs.set i (vs.getD i 0 + delta)) vars) := by
    unfold VS.updateVariable
    rw [if_pos hid, if_pos hprim]
  have hrun : VS.runUpdate deps vars id delta
      = (VS.search id (VS.computeDependents deps)).foldl
          (fun vs i => vs.set i (vs.getD i 0 + delta)) vars := by
    unfold VS.runUpdate
    rw [hok]
  constructor
  · rw [hok, hrun]
  · rw [hrun, foldl_set_getD delta _ vars x hx,
      VS.search_count id (VS.computeDependents deps) x]
    rfl

/-- C3 (witness): the amended statement evaluated on the diamond graph at the
variable reached along two inverse edges. -/
theorem claim_C3_witness :
    (VS.runUpdate [[], [0], [0], [1, 2]] [0, 0, 0, 0] 0 1).getD 3 0
      = ([0, 0, 0, 0] : List Int).getD 3 0 + 1 *
        (((if 3 = 0 then 1 else 0)
          + ((VS.getAllDependents 0 (VS.computeDependents [[], [0], [0], [1, 2]])).map
               fun u => (nbrs (VS.computeDependents [[], [0], [0], [1, 2]]) u).count 3).sum : Nat) : Int) :=
  (claim_C3_amended [[], [0], [0], [1, 2]] [0, 0, 0, 0] 0 1 3
    (by decide) (by decide) (by decide)).2

/-- C4: on the repeated-input graph `[[],[0,0]]` with the all-zero quiescent
store, `update(0, 3)` yields `value(1) = 6` only in the part_001 variant, whose
count-based dependents list `[1, 1]` makes the propagation add the delta twice
while the lock set `[0, 1]` still names the lock of variable 1 exactly once.
The main.cpp variant's find-based dependents drop the duplicate edge: it yields
`value(1) = 3`, and its own consistency check then reports expected 6, got 3. -/
theorem claim_C4_repeated_input :
    VS.runUpdate [[], [0, 0]] [0, 0] 0 3 = [3, 3] ∧
    VS.checkConsistency [[], [0, 0]] [3, 3] = some (1, 6, 3) ∧
    VS1.runUpdate [[], [0, 0]] [0, 0] 0 3 = [3, 6] ∧
    VS1.checkConsistency [[], [0, 0]] [3, 6] = none ∧
    VS1.getAllDependents 0 (VS1.computeDependents [[], [0, 0]]) = [0, 1] ∧
    VS1.computeDependents [[], [0, 0]] = [[1, 1], []] ∧
    VS.computeDependents [[], [0, 0]] = [[1], []] := by
  refine ⟨?_, ?_, ?_, ?_, ?_, ?_, ?_⟩ <;> decide

/-- C5 (counterexample): the duplicating closure search does not return each id
exactly once.  On the dependents relation of the diamond graph
`[[],[0],[0],[1,2]]`, both the main.cpp recursive `search` and the part_001
stack `search` return `[0, 1, 2, 3, 3]`, with id `3` appearing twice. -/
theorem claim_C5_counterexample :
    VS.search 0 (VS.computeDependents [[], [0], [0], [1, 2]]) = [0, 1, 2, 3, 3] ∧
    (VS.search 0 (VS.computeDependents [[], [0], [0], [1, 2]])).count 3 = 2 ∧
    VS1.search 0 (VS1.computeDependents [[], [0], [0], [1, 2]]) = [0, 1, 2, 3, 3] := by
  refine ⟨?_, ?_, ?_⟩ <;> decide

/-- C5 (amended): for every start id and every adjacency relation,
`uniqueSearch` returns the start id plus every transitively reachable id,
each exactly once, in strictly ascending order; the duplicating `search`
returns a weakly ascending sequence whose members are exactly the same
reachable ids but in which an id can appear more than once; and the part_001
stack-based `search` returns exactly the same sequence as main.cpp's
`search`. -/
theorem claim_C5_amended (startID : Nat) (searchSpace : List (List Nat)) :
    List.Sorted (· < ·) (VS.uniqueSearch startID searchSpace) ∧
    (∀ x, x ∈ VS.uniqueSearch startID searchSpace ↔ Reaches searchSpace startID x) ∧
    List.Sorted (· ≤ ·) (VS.search startID searchSpace) ∧
    (∀ x, x ∈ VS.search startID searchSpace ↔ Reaches searchSpace startID x) ∧
    VS1.search startID searchSpace = VS.search startID searchSpace :=
  ⟨VS.uniqueSearch_sorted_lt startID searchSpace,
   VS.uniqueSearch_mem startID searchSpace,
   VS.search_sorted startID searchSpace,
   VS.search_mem startID searchSpace,
   VS1.search1_eq_searchVS startID searchSpace⟩

/-- C6: every operation acquires its per-variable locks in strictly ascending id
order, each at most once: the update path locks the dependents closure in
`getAllDependents` order (strictly ascending, duplicate-free, and containing
exactly the closure of the updated id, so every id written by the update holds
its lock), with scope-exit release only after the writes; the check path locks
all ids in index order `0..N-1`; and the part_001 variant's `std::set`-based
lock list is likewise strictly ascending and duplicate-free. -/
theorem claim_C6_lock_order (deps : List (List Nat)) (variableId : Nat) :
    List.Pairwise (· < ·) (VS.getAllDependents variableId (VS.computeDependents deps)) ∧
    (VS.getAllDependents variableId (VS.computeDependents deps)).Nodup ∧
    (∀ x, x ∈ VS.getAllDependents variableId (VS.computeDependents deps) ↔
       Reaches (VS.computeDependents deps) variableId x) ∧
    (∀ x, x ∈ VS.search variableId (VS.computeDependents deps) →
       x ∈ VS.getAllDependents variableId (VS.computeDependents deps)) ∧
    VS.updateTrace deps variableId
      = ((VS.getAllDependents variableId (VS.computeDependents deps)).map
           LockEvent.acquire)
        ++ ((VS.search variableId (VS.computeDependents deps)).map LockEvent.write)
        ++ (((VS.getAllDependents variableId (VS.computeDependents deps)).reverse).map
              LockEvent.release) ∧
    List.Pairwise (· < ·) (VS.checkLockOrder deps) ∧
    List.Pairwise (· < ·) (VS1.getAllDependents variableId (VS1.computeDependents deps)) ∧
    (VS1.getAllDependents variableId (VS1.computeDependents deps)).Nodup := by
  have h1 := VS.uniqueSearch_sorted_lt variableId (VS.computeDependents deps)
  have h7 := VS1.getAllDependents_sorted_lt variableId (VS1.computeDependents deps)
  refine ⟨h1, h1.nodup, VS.uniqueSearch_mem variableId (VS.computeDependents deps),
    ?_, rfl, List.pairwise_lt_range deps.length, h7, h7.nodup⟩
  intro x hx
  rw [VS.search_mem variableId (VS.computeDependents deps) x] at hx
  exact (VS.uniqueSearch_mem variableId (VS.computeDependents deps) x).mpr hx

/-- C7 (counterexample): it is not true that the check reports a violation only
when some secondary variable mismatches: the part_000 `SensorSystem` check does
not skip primaries, so on the one-variable graph `[[]]` (variable 0 primary)
with store `[5]` it reports a violation `(0, 0, 5)` although no secondary
variable exists. -/
theorem claim_C7_counterexample :
    SS.checkConsistency [[]] [5] = some (0, 0, 5) ∧
    ([[]] : List (List Nat)).getD 0 [] = [] := by
  refine ⟨?_, ?_⟩ <;> decide

/-- C7 (amended): the `VariableSystem` checks (main.cpp and part_001) hold every
lock in ascending id order and succeed exactly when every secondary variable's
stored value equals the accumulated sum of its declared inputs with
multiplicity; the part_001 failure report carries the failing id, the expected
and actual values, and the full variable snapshot, and reports only genuine
secondary mismatches.  The part_000 `SensorSystem` check instead compares every
variable — primaries against the empty sum `0` included. -/
theorem claim_C7_amended (deps : List (List Nat)) (vars : List Int) :
    (VS1.checkConsistency deps vars = none ↔
      ∀ i < deps.length, ¬(deps.getD i []).isEmpty = true →
        inputSum vars (deps.getD i []) = vars.getD i 0) ∧
    (∀ r, VS1.checkConsistency deps vars = some r →
      r.1 < deps.length ∧ ¬(deps.getD r.1 []).isEmpty = true ∧
      r.2.1 = inputSum vars (deps.getD r.1 []) ∧
      r.2.2.1 = vars.getD r.1 0 ∧ r.2.2.2 = vars ∧ r.2.1 ≠ r.2.2.1) ∧
    (VS.checkConsistency deps vars = none ↔
      ∀ i < deps.length, ¬(deps.getD i []).isEmpty = true →
        inputSum vars (deps.getD i []) = vars.getD i 0) ∧
    (SS.checkConsistency deps vars = none ↔
      ∀ i < deps.length, inputSum vars (deps.getD i []) = vars.getD i 0) ∧
    List.Pairwise (· < ·) (VS.checkLockOrder deps) :=
  ⟨check1_none_iff deps vars, fun r => check1_some_props deps vars r,
   checkVS_none_iff deps vars, checkSS_none_iff deps vars,
   List.pairwise_lt_range deps.length⟩

/-- C8: `update` on an out-of-range id, or on a secondary (non-primary) id,
returns InvalidArgument in every variant and leaves every stored value
unchanged. -/
theorem claim_C8_reject (deps : List (List Nat)) (vars : List Int)
    (id : Nat) (delta : Int)
    (h : deps.length ≤ id ∨ ¬(deps.getD id []).isEmpty = true) :
    VS.updateVariable deps vars id delta = Except.error UpdateError.invalidArgument ∧
    VS.runUpdate deps vars id delta = vars ∧
    VS1.updateVariable deps vars id delta = Except.error UpdateError.invalidArgument ∧
    VS1.runUpdate deps vars id delta = vars ∧
    (SS.updateVariable deps vars id delta).1 = Except.error UpdateError.invalidArgument ∧
    (SS.updateVariable deps vars id delta).2 = vars := by
  have hVS : VS.updateVariable deps vars id delta
      = Except.error UpdateError.invalidArgument := by
    unfold VS.updateVariable
    rcases h with h | h
    · rw [if_neg (by omega)]
    · by_cases h2 : id < deps.length
      · rw [if_pos h2, if_neg h]
      · rw [if_neg h2]
  have hVS1 : VS1.updateVariable deps vars id delta
      = Except.error UpdateError.invalidArgument := by
    unfold VS1.updateVariable
    rcases h with h | h
    · rw [if_neg (by omega)]
    · by_cases h2 : id < deps.length
      · rw [if_pos h2, if_neg h]
      · rw [if_neg h2]
  have hSS : (SS.updateVariable deps vars id delta).1
      = Except.error UpdateError.invalidArgument := by
    unfold SS.updateVariable
    rcases h with h | h
    · rw [if_neg (by omega)]
    · by_cases h2 : id < deps.length
      · rw [if_pos h2, if_neg h]
      · rw [if_neg h2]
  refine ⟨hVS, ?_, hVS1, ?_, hSS, ss_update_state deps vars id delta⟩
  · unfold VS.runUpdate
    rw [hVS]
  · unfold VS1.runUpdate
    rw [hVS1]

/-- C8 (witness): rejection evaluated at the secondary id 1 of the graph
`[[],[0]]`. -/
theorem claim_C8_witness :
    (([[], [0]] : List (List Nat)).length ≤ 1
       ∨ ¬(([[], [0]] : List (List Nat)).getD 1 []).isEmpty = true) ∧
    (VS.updateVariable [[], [0]] [7, 7] 1 5 = Except.error UpdateError.invalidArgument ∧
     VS.runUpdate [[], [0]] [7, 7] 1 5 = [7, 7] ∧
     VS1.updateVariable [[], [0]] [7, 7] 1 5 = Except.error UpdateError.invalidArgument ∧
     VS1.runUpdate [[], [0]] [7, 7] 1 5 = [7, 7] ∧
     (SS.updateVariable [[], [0]] [7, 7] 1 5).1 = Except.error UpdateError.invalidArgument ∧
     (SS.updateVariable [[], [0]] [7, 7] 1 5).2 = [7, 7]) :=
  ⟨by decide, claim_C8_reject [[], [0]] [7, 7] 1 5 (by decide)⟩

/-- C9: the `SensorSystem` update path is write-free: its event trace contains
no write event, a successful call returns the store unchanged, and any sequence
of calls leaves every variable at its initial value. -/
theorem claim_C9_no_write (deps : List (List Nat)) (vars : List Int)
    (id : Nat) (delta : Int)
    (hid : id < deps.length) (hprim : (deps.getD id []).isEmpty = true) :
    (∀ w : Nat, LockEvent.write w ∉ SS.updateTrace deps id) ∧
    (SS.updateVariable deps vars id delta).1 = Except.ok () ∧
    (SS.updateVariable deps vars id delta).2 = vars ∧
    (∀ calls : List (Nat × Int),
      calls.foldl (fun vs c => (SS.updateVariable deps vs c.1 c.2).2) vars = vars) := by
  refine ⟨ssTrace_no_write deps id, ?_, ss_update_state deps vars id delta,
    fun calls => ss_run_all deps calls vars⟩
  unfold SS.updateVariable
  rw [if_pos hid, if_pos hprim]

/-- C9 (witness): the write-free update evaluated on the primary id 0 of the
graph `[[],[0]]`. -/
theorem claim_C9_witness :
    ((0 : Nat) < ([[], [0]] : List (List Nat)).length
      ∧ (([[], [0]] : List (List Nat)).getD 0 []).isEmpty = true) ∧
    ((∀ w : Nat, LockEvent.write w ∉ SS.updateTrace [[], [0]] 0) ∧
     (SS.updateVariable [[], [0]] [7, 7] 0 2).1 = Except.ok () ∧
     (SS.updateVariable [[], [0]] [7, 7] 0 2).2 = [7, 7] ∧
     (∀ calls : List (Nat × Int),
       calls.foldl (fun vs c => (SS.updateVariable [[], [0]] vs c.1 c.2).2) [7, 7]
         = [7, 7])) :=
  ⟨⟨by decide, by decide⟩, claim_C9_no_write [[], [0]] [7, 7] 0 2 (by decide) (by decide)⟩

/-- C10: immediately after construction every variable stores 0, and this
all-zero state passes the consistency check of every variant (each secondary's
value 0 equals the sum of its all-zero inputs, and in the SensorSystem variant
each primary's value 0 equals the empty sum). -/
theorem claim_C10_initial_state (deps : List (List Nat)) :
    (∀ i, (VS.createVariables deps.length).getD i 0 = 0) ∧
    VS.checkConsistency deps (VS.createVariables deps.length) = none ∧
    VS1.checkConsistency deps (VS.createVariables deps.length) = none ∧
    SS.checkConsistency deps (SS.initialVariables deps.length) = none := by
  have hz : ∀ i, (VS.createVariables deps.length).getD i 0 = 0 := fun i =>
    getD_replicate_zero deps.length i
  have hsum : ∀ inputs : List Nat,
      inputSum (VS.createVariables deps.length) inputs = 0 := by
    intro inputs
    rw [inputSum_eq_sum]
    apply List.sum_eq_zero
    intro x hx
    obtain ⟨v, _, hv⟩ := List.mem_map.mp hx
    rw [← hv, hz v]
  refine ⟨hz, ?_, ?_, ?_⟩
  · rw [checkVS_none_iff]
    intro i _ _
    rw [hsum, hz i]
  · rw [check1_none_iff]
    intro i _ _
    rw [hsum, hz i]
  · rw [checkSS_none_iff]
    intro i _
    have hzs : ∀ j, (SS.initialVariables deps.length).getD j 0 = 0 := fun j =>
      getD_replicate_zero deps.length j
    have hsums : ∀ inputs : List Nat,
        inputSum (SS.initialVariables deps.length) inputs = 0 := by
      intro inputs
      rw [inputSum_eq_sum]
      apply List.sum_eq_zero
      intro x hx
      obtain ⟨v, _, hv⟩ := List.mem_map.mp hx
      rw [← hv, hzs v]
    rw [hsums, hzs i]

end PDP
